import Mathlib

/-!
Shallow embedding of the fcc-ipes pipeline core (src/extract.py, src/filter.py,
src/structure.py, src/download_docs.py, src/enrich.py).

Python strings are modelled as `List Char`.  Python `str.lower` is modelled
per-character with `Char.toLower` (ASCII case folding, matching the repository's
ASCII data); the regex class `\s` and `str.strip()` are modelled with the ASCII
whitespace characters.  Regex substitutions in the source are all anchored at
end-of-string (the suffix table) or applied to fixed character classes, and are
embedded as executable functions whose leftmost-match semantics mirror
`re.sub` / `re.match` for exactly those patterns.
-/

set_option maxRecDepth 4000

abbrev Str := List Char

/-- ASCII whitespace, the characters matched by Python's `\s` and stripped by
`str.strip()` on the repository's data. -/
def isWsChar (c : Char) : Bool :=
  c = ' ' || c = '\t' || c = '\n' || c = '\x0b' || c = '\x0c' || c = '\r'

/-- Python `str.lower()` (per-character ASCII fold). -/
def toLowerStr (s : Str) : Str := s.map Char.toLower

/-- Python `str.strip()`: drop whitespace at both ends. -/
def stripStr (s : Str) : Str :=
  ((s.dropWhile isWsChar).reverse.dropWhile isWsChar).reverse

/-- Python `str.rstrip('.,')`: drop trailing dots and commas. -/
def rstripDotComma (s : Str) : Str :=
  (s.reverse.dropWhile (fun c => c = '.' || c = ',')).reverse

/-- Helper for `re.sub(r'\s+', ' ', s)`: `prevWs` records whether the previous
character was part of a whitespace run already replaced by a single space. -/
def collapseWsGo : Str → Bool → Str
  | [], _ => []
  | c :: cs, prevWs =>
    if isWsChar c then
      if prevWs then collapseWsGo cs true else ' ' :: collapseWsGo cs true
    else c :: collapseWsGo cs false

/-- `re.sub(r'\s+', ' ', s)`: every maximal whitespace run becomes one space. -/
def collapseWs (s : Str) : Str := collapseWsGo s false

/-- Does `s` start with `pat`? -/
def startsWithStr : Str → Str → Bool
  | _, [] => true
  | [], _ :: _ => false
  | c :: cs, p :: ps => c = p && startsWithStr cs ps

/-- Python's `pat in s` for strings: `pat` occurs as a contiguous substring. -/
def containsStr (s pat : Str) : Bool :=
  match s with
  | [] => pat.isEmpty
  | _ :: cs => startsWithStr s pat || containsStr cs pat

/-- Lexicographic `<=` on strings by code point (Python string comparison). -/
def strLe : Str → Str → Bool
  | [], _ => true
  | _ :: _, [] => false
  | a :: as, b :: bs => if a < b then true else if a = b then strLe as bs else false

/-- The core of a suffix pattern, as a list of atoms: each atom is a letter
together with whether the source regex puts an optional dot `\.?` after it
(`l\.?l\.?c\.?` allows one after every letter; `inc\.?`, `corp\.?`, `ltd\.?`
and `co\.?` only after the final letter). -/
abbrev RuleCore := List (Char × Bool)

/-- Core of the shape `x\.?y\.?z\.?`: a dot allowed after every letter. -/
def dotAfterEach (s : Str) : RuleCore := s.map (fun c => (c, true))

/-- Core of the shape `xyz\.?`: a dot allowed only after the final letter. -/
def dotAfterLast : Str → RuleCore
  | [] => []
  | [c] => [(c, true)]
  | c :: cs => (c, false) :: dotAfterLast cs

/-- `src/structure.py` `normalize_company_name`, suffix table:
matches a core against the whole remaining string (the pattern is anchored at
end-of-string); a dot may be consumed after a letter only where its atom
allows one. -/
def matchCore : RuleCore → Str → Bool
  | [], s => s.isEmpty
  | _ :: _, [] => false
  | (l, dotOk) :: ls, c :: rest =>
    c = l && (matchCore ls rest ||
      (dotOk &&
        match rest with
        | '.' :: r2 => matchCore ls r2
        | _ => false))

/-- Does `\s*,?\s*CORE$` match the whole string `s`?  The comma and the core
letters are not whitespace, so the greedy parse below is equivalent to the
regex. -/
def matchesSuffixRule (letters : RuleCore) (s : Str) : Bool :=
  let s1 := s.dropWhile isWsChar
  let s2 := match s1 with
    | ',' :: r => r.dropWhile isWsChar
    | _ => s1
  matchCore letters s2

/-- `re.sub(r'\s*,?\s*CORE$', repl, s)`: replace from the leftmost position
whose suffix matches the anchored pattern; the match always extends to the end
of the string. -/
def subSuffix (letters : RuleCore) (repl : Str) : Str → Str
  | [] => if matchesSuffixRule letters [] then repl else []
  | c :: cs =>
    if matchesSuffixRule letters (c :: cs) then repl
    else c :: subSuffix letters repl cs

/-- The ordered suffix-rewrite table of `normalize_company_name`
(`src/structure.py` lines 32-41): (core, replacement), with the dot positions
of each source regex. -/
def suffixRules : List (RuleCore × Str) :=
  [ (dotAfterEach "llc".toList, " llc".toList),
    (dotAfterLast "inc".toList, " inc".toList),
    (dotAfterLast "corp".toList, " corp".toList),
    (dotAfterEach "llp".toList, " llp".toList),
    (dotAfterEach "lp".toList, " lp".toList),
    (dotAfterLast "ltd".toList, " ltd".toList),
    (dotAfterLast "co".toList, " co".toList),
    (dotAfterEach "pllc".toList, " pllc".toList) ]

/-- The `for pattern, replacement in suffixes: normalized = re.sub(...)` loop:
every rule of the table is applied, in table order. -/
def applySuffixRules (s : Str) : Str :=
  suffixRules.foldl (fun t r => subSuffix r.1 r.2 t) s

/-- `src/structure.py` `normalize_company_name`. -/
def normalize_company_name (name : Str) : Str :=
  if name = [] then []
  else
    let n0 := stripStr (toLowerStr name)
    let n1 := applySuffixRules n0
    let n2 := stripStr (collapseWs n1)
    rstripDotComma n2

/-! ### `src/structure.py` `extract_dba_name`

`re.match(r'^(.+?)\s+d/?b/?a\s+(.+)$', name, re.IGNORECASE)` and
`re.match(r'^(.+?)\s+doing\s+business\s+as\s+(.+)$', name, re.IGNORECASE)`,
tried in that order; on a match the two groups are returned stripped,
otherwise `(name, None)`.  `.` does not match a newline; `$` accepts an
optional final newline after the second group. -/

/-- One optional `/?`: consume a slash if present. -/
def afterOptSlash (s : Str) : Str :=
  match s with
  | '/' :: r => r
  | _ => s

/-- Case-insensitive parse of the core `d/?b/?a`; returns the rest on success. -/
def parseCoreDba (s : Str) : Option Str :=
  match s with
  | c :: r =>
    if c.toLower = 'd' then
      match afterOptSlash r with
      | b :: r2 =>
        if b.toLower = 'b' then
          match afterOptSlash r2 with
          | a :: r3 => if a.toLower = 'a' then some r3 else none
          | [] => none
        else none
      | [] => none
    else none
  | [] => none

/-- Case-insensitive parse of a literal word (given in lowercase). -/
def parseWordCI : Str → Str → Option Str
  | [], s => some s
  | _ :: _, [] => none
  | w :: ws, c :: r => if c.toLower = w then parseWordCI ws r else none

/-- `\s+` followed by a token that starts with a non-whitespace character:
the greedy whitespace run is forced to be maximal and must be nonempty. -/
def requireWsRun (s : Str) : Option Str :=
  match s with
  | c :: _ => if isWsChar c then some (s.dropWhile isWsChar) else none
  | [] => none

/-- Case-insensitive parse of the core `doing\s+business\s+as`. -/
def parseCoreDoingBusinessAs (s : Str) : Option Str :=
  (parseWordCI "doing".toList s).bind
    (fun s1 => (requireWsRun s1).bind
      (fun s2 => (parseWordCI "business".toList s2).bind
        (fun s3 => (requireWsRun s3).bind
          (fun s4 => parseWordCI "as".toList s4))))

/-- `(.+)$` on `s`: a maximal nonempty run of non-newline characters followed
by the end of the string or by a single final newline. -/
def matchDotPlusEnd (s : Str) : Option Str :=
  let post := s.takeWhile (fun c => c ≠ '\n')
  let tail := s.dropWhile (fun c => c ≠ '\n')
  if post ≠ [] ∧ (tail = [] ∨ tail = ['\n']) then some post else none

/-- `\s+(.+)$` on `s`: greedy `\s+` with backtracking — the longest whitespace
run whose remainder still matches `(.+)$` wins. -/
def wsThenDotPlusEnd : Str → Option Str
  | [] => none
  | c :: rest =>
    if isWsChar c then
      match wsThenDotPlusEnd rest with
      | some g => some g
      | none => matchDotPlusEnd rest
    else none

/-- `\s+ CORE \s+(.+)$` (the part of a dba pattern after the lazy group). -/
def parseSepTail (coreP : Str → Option Str) (s : Str) : Option Str :=
  match requireWsRun s with
  | some s1 =>
    match coreP s1 with
    | some rest => wsThenDotPlusEnd rest
    | none => none
  | none => none

/-- Lazy `^(.+?)` scan: grow the first group one character at a time (shortest
first, never across a newline) until the rest of the pattern matches. -/
def dbaScan (coreP : Str → Option Str) : Str → Str → Option (Str × Str)
  | _, [] => none
  | pre, c :: rest =>
    if c = '\n' then none
    else
      match parseSepTail coreP rest with
      | some g2 => some (pre ++ [c], g2)
      | none => dbaScan coreP (pre ++ [c]) rest

/-- `src/structure.py` `extract_dba_name`. -/
def extract_dba_name (name : Str) : Str × Option Str :=
  match dbaScan parseCoreDba [] name with
  | some (g1, g2) => (stripStr g1, some (stripStr g2))
  | none =>
    match dbaScan parseCoreDoingBusinessAs [] name with
    | some (g1, g2) => (stripStr g1, some (stripStr g2))
    | none => (name, none)

/-- `src/structure.py` `is_government_entity` keyword table. -/
def govtKeywords : List Str :=
  [ "wireline competition bureau".toList,
    "federal communications commission".toList,
    "fcc".toList,
    "u.s. department".toList,
    "department of justice".toList ]

/-- `src/structure.py` `is_government_entity`. -/
def is_government_entity (name : Str) : Bool :=
  govtKeywords.any (fun kw => containsStr (toLowerStr name) kw)

/-! ### `src/filter.py` — relevance classifier

A filing is modelled by the fields the classifier reads: for each entry of
`proceedings[]` its `description` (absent/null modelled as `none`), and for
each entry of `documents[]` its `filename`. -/

structure FFiling where
  proceedings : List (Option Str)
  documents : List (Option Str)
deriving DecidableEq

def phraseInterconnected : Str := "interconnected voip numbering".toList
def phraseAuthorizationApp : Str := "voip numbering authorization application".toList
def phraseObtainResources : Str := "authorization to obtain numbering resources".toList
def phraseDocFilename : Str := "voip numbering".toList

/-- `src/filter.py` `is_ipes_filing`: `(proc.get("description") or "").lower()`
is modelled by `toLowerStr (d.getD [])`; the sequential `return True` checks
are the disjunction below. -/
def is_ipes_filing (f : FFiling) : Bool :=
  f.proceedings.any (fun d =>
    let desc := toLowerStr (d.getD [])
    containsStr desc phraseInterconnected ||
    containsStr desc phraseAuthorizationApp ||
    containsStr desc phraseObtainResources) ||
  f.documents.any (fun fn => containsStr (toLowerStr (fn.getD [])) phraseDocFilename)

/-! ### `sanitize_filename` (`src/download_docs.py` and `src/enrich.py`)

Both modules define the function; each namespace below is translated from its
own module. -/

/-- The character class `[<>:"/\\|?*]`. -/
def isBadFileChar (c : Char) : Bool :=
  c = '<' || c = '>' || c = ':' || c = '"' || c = '/' || c = '\\' ||
  c = '|' || c = '?' || c = '*'

/-- Helper for `re.sub(r'[_\s]+', '_', s)`. -/
def usCollapseGo : Str → Bool → Str
  | [], _ => []
  | c :: cs, prev =>
    if c = '_' || isWsChar c then
      if prev then usCollapseGo cs true else '_' :: usCollapseGo cs true
    else c :: usCollapseGo cs false

/-- `re.sub(r'[_\s]+', '_', s)`: collapse runs of underscores/whitespace. -/
def usCollapse (s : Str) : Str := usCollapseGo s false

/-- `name, ext = filename.rsplit('.', 1)`: split at the last dot. -/
def splitLastDot (s : Str) : Str × Str :=
  let r := s.reverse
  let ext := (r.takeWhile (fun c => c ≠ '.')).reverse
  let nm := ((r.dropWhile (fun c => c ≠ '.')).drop 1).reverse
  (nm, ext)

namespace DownloadDocs

/-- `src/download_docs.py` `sanitize_filename`. -/
def sanitize_filename (filename : Str) : Str :=
  let f1 := filename.map (fun c => if isBadFileChar c then '_' else c)
  let f2 := usCollapse f1
  if f2.length > 100 then
    let (nm, ext) := if f2.contains '.' then splitLastDot f2 else (f2, [])
    nm.take 95 ++ (if ext ≠ [] then '.' :: ext else [])
  else f2

end DownloadDocs

namespace Enrich

/-- `src/enrich.py` `sanitize_filename`. -/
def sanitize_filename (filename : Str) : Str :=
  let f1 := filename.map (fun c => if isBadFileChar c then '_' else c)
  let f2 := usCollapse f1
  if f2.length > 100 then
    let (nm, ext) := if f2.contains '.' then splitLastDot f2 else (f2, [])
    nm.take 95 ++ (if ext ≠ [] then '.' :: ext else [])
  else f2

end Enrich

/-! ### `src/extract.py` — record deduplicator

A raw filing is modelled by the field the deduplicator reads
(`id_submission`, absent/null modelled as `none`) plus an opaque payload
standing for the rest of the JSON object, so that two filings with the same id
can have different content. -/

structure EFiling where
  id_submission : Option Str
  payload : Nat
deriving DecidableEq

instance : Nonempty EFiling := ⟨⟨none, 0⟩⟩

/-- Python truthiness of `f.get("id_submission")`: `some k` iff the field is
present, non-null and nonempty. -/
def truthyId (f : EFiling) : Option Str :=
  match f.id_submission with
  | some s => if s = [] then none else some s
  | none => none

/-- Minimal association-list model of the Python dict `all_filings`
(insertion-ordered, first occurrence wins). -/
def lookupId (k : Str) : List (Str × EFiling) → Option EFiling
  | [] => none
  | (k2, f) :: m => if k2 = k then some f else lookupId k m

/-- One iteration of `for f in filings:` in `extract_filings`
(`src/extract.py` lines 110-113). -/
def dedupStep (m : List (Str × EFiling)) (f : EFiling) : List (Str × EFiling) :=
  match truthyId f with
  | some k => if lookupId k m = none then m ++ [(k, f)] else m
  | none => m

/-- The dedup map built by `extract_filings` over the query result lists, in
query order then within-query order. -/
def extract_dedup (queries : List (List EFiling)) : List (Str × EFiling) :=
  queries.foldl (fun m q => q.foldl dedupStep m) []

/-- The per-query statistics recorded by `extract_filings`
(`fetched`, `new_unique`) together with `total_unique_filings`
(`src/extract.py` lines 109-121 and 133-138); the fixed query strings carry no
information and are omitted. -/
def extractStats (queries : List (List EFiling)) : List (Nat × Nat) × Nat :=
  let fin := queries.foldl
    (fun (acc : List (Str × EFiling) × List (Nat × Nat)) q =>
      let m2 := q.foldl dedupStep acc.1
      (m2, acc.2 ++ [(q.length, m2.length - acc.1.length)]))
    ([], [])
  (fin.2, fin.1.length)

/-- First filing in a list whose truthy id is `k`. -/
def firstOcc (k : Str) : List EFiling → Option EFiling
  | [] => none
  | f :: l => if truthyId f = some k then some f else firstOcc k l

/-- The distinct truthy ids of a list of filings, in first-occurrence order,
appended to an accumulator of already-seen ids. -/
def distinctIds : List EFiling → List Str → List Str
  | [], ks => ks
  | f :: l, ks =>
    match truthyId f with
    | some k => if ks.contains k then distinctIds l ks else distinctIds l (ks ++ [k])
    | none => distinctIds l ks

/-! ### Stable sort

Python's `list.sort` / `sorted` are stable; a stable insertion sort is an
extensionally equal model (for a total preorder, sortedness plus stability
determine the output uniquely). -/

/-- Insert `a` after every element `b` of the (sorted) list with `le b a`. -/
def stableInsert (le : α → α → Bool) (a : α) : List α → List α
  | [] => [a]
  | b :: bs => if le b a then b :: stableInsert le a bs else a :: b :: bs

/-- Stable sort: insert the elements left to right. -/
def stableSort (le : α → α → Bool) (l : List α) : List α :=
  l.foldl (fun acc x => stableInsert le x acc) []

/-! ### `src/structure.py` `structure_companies`

A filtered filing is modelled by the fields `structure_companies` reads for the
record fields any claim is about: the `name` of each entry of `filers[]`
(absent/null as `none`), `submissiontype.description` (absent level collapsed:
`none` when either the dict or the description is missing) and `date_received`.
The fields `proceedings`, `documents`, `authors`, `lawfirms` and
`filingstatus` feed only record fields (`docket_numbers`, `documents`,
`contacts`, `attorneys`, `proceeding_types`, `filings[].status`, stats) that no
claim mentions, and are omitted, as are those record fields. -/

structure SFiling where
  filers : List (Option Str)
  submissiontype : Option Str
  date_received : Option Str
deriving DecidableEq

structure Company where
  company_name : Str
  company_name_normalized : Str
  dba_name : Option Str
  name_variations : List Str
  first_filing_date : Str
  latest_filing_date : Option Str
  application_count : Nat
  total_filing_count : Nat
deriving DecidableEq

/-- One entry of the two insertion-ordered dicts `company_filings` /
`name_variations` (they share exactly the same keys, so they are modelled as
one association list;  `name_variations` is a Python `set`, modelled as a
duplicate-free list — every use in the source sorts it, so its order is
irrelevant). -/
structure GEntry where
  key : Str
  filings : List SFiling
  variations : List Str
deriving DecidableEq

/-- `company_filings[normalized].append(filing)` and
`name_variations[normalized].add(filer_name)`. -/
def addToGroups (gs : List GEntry) (k : Str) (nm : Str) (f : SFiling) : List GEntry :=
  match gs with
  | [] => [⟨k, [f], [nm]⟩]
  | e :: rest =>
    if e.key = k then
      ⟨e.key, e.filings ++ [f],
        if e.variations.contains nm then e.variations else e.variations ++ [nm]⟩ :: rest
    else e :: addToGroups rest k nm f

/-- `filers[0].get('name', '').strip()`; `[]` when `filers` is empty, the name
is missing, or the name is blank — all of which the loop skips
(`excluded_no_filer`). -/
def filerNameOf (f : SFiling) : Str :=
  match f.filers with
  | [] => []
  | n :: _ => stripStr (n.getD [])

/-- The grouping loop of `structure_companies` (`src/structure.py` 103-131). -/
def groupFold (input : List SFiling) : List GEntry :=
  input.foldl
    (fun gs f =>
      let nm := filerNameOf f
      if nm = [] then gs
      else if is_government_entity nm then gs
      else addToGroups gs (normalize_company_name nm) nm f)
    []

def applicationDesc : Str := "APPLICATION".toList

/-- `f.get('submissiontype', {}).get('description') == 'APPLICATION'`. -/
def isApplication (f : SFiling) : Bool :=
  decide (f.submissiontype = some applicationDesc)

/-- `x.get('date_received', '')`. -/
def dateKey (f : SFiling) : Str := f.date_received.getD []

/-- Sort key of `applications.sort(key=lambda x: x.get('date_received', ''))`. -/
def dateLe (a b : SFiling) : Bool := strLe (dateKey a) (dateKey b)

/-- Sort key `lambda x: (-len(x), x)` used for the name-variation election. -/
def varLe (a b : Str) : Bool :=
  decide (b.length < a.length) || (decide (a.length = b.length) && strLe a b)

/-- The per-group body of `structure_companies` (`src/structure.py` 136-235):
`none` when the group has no APPLICATION filing.  `other_filings` is computed
and sorted by the source but feeds no modelled field.  Note the source reads
`filings[-1]` (input order) for `latest_filing_date`, not a date-sorted list. -/
def buildCompany (e : GEntry) : Option Company :=
  let applications := e.filings.filter isApplication
  if applications.isEmpty then none
  else
    let appsSorted := stableSort dateLe applications
    let varsSorted := stableSort varLe e.variations
    let primary := match varsSorted with | [] => e.key | v :: _ => v
    some
      { company_name := primary
        company_name_normalized := e.key
        dba_name := (extract_dba_name primary).2
        name_variations := stableSort strLe e.variations
        first_filing_date := (match appsSorted with | [] => [] | a :: _ => dateKey a).take 10
        latest_filing_date :=
          match e.filings.getLast? with
          | some f => some ((dateKey f).take 10)
          | none => none
        application_count := applications.length
        total_filing_count := e.filings.length }

/-- `structure_companies`: group, build records, sort by normalized name.
(The surrounding file I/O and run statistics are not modelled.) -/
def structure_companies (input : List SFiling) : List Company :=
  stableSort (fun a b => strLe a.company_name_normalized b.company_name_normalized)
    ((groupFold input).filterMap buildCompany)

/-- Does the anchored pattern of a suffix rule match at some position of `s`
(equivalently: does `re.sub` find a match in `s`)? -/
def ruleHits (letters : RuleCore) : Str → Bool
  | [] => matchesSuffixRule letters []
  | c :: cs => matchesSuffixRule letters (c :: cs) || ruleHits letters cs

/-- `match a with | some v => some v | none => b` (first-defined option),
used to state lookup lemmas about the dedup map. -/
def oFirst (a b : Option EFiling) : Option EFiling :=
  match a with
  | some v => some v
  | none => b

/-! ## Helper lemmas -/

theorem strLe_refl : ∀ s : Str, strLe s s = true
  | [] => rfl
  | a :: as => by simp [strLe, strLe_refl as]

theorem strLe_total : ∀ a b : Str, strLe a b = true ∨ strLe b a = true
  | [], _ => Or.inl rfl
  | _ :: _, [] => Or.inr rfl
  | a :: as, b :: bs => by
    rcases lt_trichotomy a b with h | h | h
    · left; simp [strLe, h]
    · subst h
      rcases strLe_total as bs with ih | ih
      · left; simp [strLe, ih]
      · right; simp [strLe, ih]
    · right; simp [strLe, h]

theorem strLe_trans : ∀ a b c : Str, strLe a b = true → strLe b c = true → strLe a c = true
  | [], _, _ => fun _ _ => rfl
  | _ :: _, [], _ => fun h _ => by simp [strLe] at h
  | _ :: _, _ :: _, [] => fun _ h => by simp [strLe] at h
  | a :: as, b :: bs, c :: cs => by
    intro h1 h2
    by_cases hab : a < b
    · by_cases hbc : b < c
      · simp [strLe, lt_trans hab hbc]
      · by_cases hbc2 : b = c
        · subst hbc2; simp [strLe, hab]
        · simp [strLe, hbc, hbc2] at h2
    · by_cases hab2 : a = b
      · subst hab2
        simp only [strLe, lt_irrefl, if_false, if_pos rfl] at h1
        by_cases hac : a < c
        · simp [strLe, hac]
        · by_cases hac2 : a = c
          · subst hac2
            simp only [strLe, lt_irrefl, if_false, if_pos rfl] at h2 ⊢
            exact strLe_trans as bs cs h1 h2
          · simp [strLe, hac, hac2] at h2
      · simp [strLe, hab, hab2] at h1

theorem varLe_refl (a : Str) : varLe a a = true := by
  simp [varLe, strLe_refl]

theorem varLe_total (a b : Str) : varLe a b = true ∨ varLe b a = true := by
  rcases lt_trichotomy a.length b.length with h | h | h
  · right; simp [varLe, h]
  · rcases strLe_total a b with hs | hs
    · left; simp [varLe, h, hs]
    · right; simp [varLe, h.symm, hs]
  · left; simp [varLe, h]

theorem varLe_trans (a b c : Str) (h1 : varLe a b = true) (h2 : varLe b c = true) :
    varLe a c = true := by
  simp only [varLe, Bool.or_eq_true, Bool.and_eq_true, decide_eq_true_eq] at h1 h2 ⊢
  rcases h1 with h1 | ⟨e1, s1⟩
  · rcases h2 with h2 | ⟨e2, s2⟩
    · exact Or.inl (lt_trans h2 h1)
    · exact Or.inl (e2 ▸ h1)
  · rcases h2 with h2 | ⟨e2, s2⟩
    · exact Or.inl (e1 ▸ h2)
    · exact Or.inr ⟨e1.trans e2, strLe_trans a b c s1 s2⟩

theorem mem_stableInsert (le : α → α → Bool) (a x : α) :
    ∀ l : List α, x ∈ stableInsert le a l ↔ x = a ∨ x ∈ l
  | [] => by simp [stableInsert]
  | b :: bs => by
    cases h : le b a
    · simp only [stableInsert, h, Bool.false_eq_true, if_false, List.mem_cons]
    · simp only [stableInsert, h, if_true, List.mem_cons, mem_stableInsert le a x bs]
      tauto

theorem mem_stableSortAux (le : α → α → Bool) (x : α) :
    ∀ (l acc : List α),
      x ∈ l.foldl (fun acc y => stableInsert le y acc) acc ↔ x ∈ acc ∨ x ∈ l
  | [], acc => by simp
  | y :: l, acc => by
    simp only [List.foldl_cons]
    rw [mem_stableSortAux le x l (stableInsert le y acc)]
    rw [mem_stableInsert]
    simp only [List.mem_cons]
    tauto

theorem mem_stableSort (le : α → α → Bool) (x : α) (l : List α) :
    x ∈ stableSort le l ↔ x ∈ l := by
  unfold stableSort
  rw [mem_stableSortAux]
  simp

theorem pairwise_stableInsert (le : α → α → Bool)
    (total : ∀ a b, le a b = true ∨ le b a = true)
    (htrans : ∀ a b c, le a b = true → le b c = true → le a c = true)
    (a : α) : ∀ l : List α, l.Pairwise (fun x y => le x y = true) →
      (stableInsert le a l).Pairwise (fun x y => le x y = true)
  | [], _ => by simp [stableInsert]
  | b :: bs, h => by
    rw [List.pairwise_cons] at h
    obtain ⟨hb, hbs⟩ := h
    cases hba : le b a
    · have hab : le a b = true := by
        rcases total a b with h | h
        · exact h
        · rw [h] at hba; exact absurd hba (by simp)
      simp only [stableInsert, hba, Bool.false_eq_true, if_false]
      rw [List.pairwise_cons]
      refine ⟨?_, List.pairwise_cons.mpr ⟨hb, hbs⟩⟩
      intro x hx
      rcases List.mem_cons.mp hx with rfl | hx
      · exact hab
      · exact htrans a b x hab (hb x hx)
    · simp only [stableInsert, hba, if_true]
      rw [List.pairwise_cons]
      refine ⟨?_, pairwise_stableInsert le total htrans a bs hbs⟩
      intro x hx
      rw [mem_stableInsert] at hx
      rcases hx with rfl | hx
      · exact hba
      · exact hb x hx

theorem pairwise_stableSortAux (le : α → α → Bool)
    (total : ∀ a b, le a b = true ∨ le b a = true)
    (htrans : ∀ a b c, le a b = true → le b c = true → le a c = true) :
    ∀ (l acc : List α), acc.Pairwise (fun x y => le x y = true) →
      (l.foldl (fun acc y => stableInsert le y acc) acc).Pairwise
        (fun x y => le x y = true)
  | [], _, h => h
  | y :: l, acc, h => by
    simp only [List.foldl_cons]
    exact pairwise_stableSortAux le total htrans l (stableInsert le y acc)
      (pairwise_stableInsert le total htrans y acc h)

theorem pairwise_stableSort (le : α → α → Bool)
    (total : ∀ a b, le a b = true ∨ le b a = true)
    (htrans : ∀ a b c, le a b = true → le b c = true → le a c = true)
    (l : List α) :
    (stableSort le l).Pairwise (fun x y => le x y = true) :=
  pairwise_stableSortAux le total htrans l [] (List.Pairwise.nil)

theorem addToGroups_pres (Q : GEntry → Prop) (k nm : Str) (f : SFiling)
    (hQnew : Q ⟨k, [f], [nm]⟩)
    (hQmod : ∀ e0 : GEntry, Q e0 →
      Q ⟨e0.key, e0.filings ++ [f],
          if e0.variations.contains nm then e0.variations
          else e0.variations ++ [nm]⟩) :
    ∀ gs : List GEntry, (∀ e ∈ gs, Q e) → ∀ e ∈ addToGroups gs k nm f, Q e
  | [], _ => by
    intro e he
    simp only [addToGroups, List.mem_singleton] at he
    exact he ▸ hQnew
  | e0 :: rest, hgs => by
    intro e he
    by_cases hk : e0.key = k
    · simp only [addToGroups, if_pos hk, List.mem_cons] at he
      rcases he with rfl | he
      · exact hQmod e0 (hgs e0 (List.mem_cons_self e0 rest))
      · exact hgs e (List.mem_cons_of_mem e0 he)
    · simp only [addToGroups, if_neg hk, List.mem_cons] at he
      rcases he with rfl | he
      · exact hgs e (List.mem_cons_self e rest)
      · exact addToGroups_pres Q k nm f hQnew hQmod rest
          (fun x hx => hgs x (List.mem_cons_of_mem e0 hx)) e he

/-- Fold invariant for the grouping loop: every group entry has a nonempty
variation set and only holds filings drawn from the processed list. -/
theorem groupFoldAux_inv (S : List SFiling) :
    ∀ (l : List SFiling) (gs : List GEntry), (∀ x ∈ l, x ∈ S) →
      (∀ e ∈ gs, e.variations ≠ [] ∧ ∀ x ∈ e.filings, x ∈ S) →
      ∀ e ∈ l.foldl
        (fun gs f =>
          let nm := filerNameOf f
          if nm = [] then gs
          else if is_government_entity nm then gs
          else addToGroups gs (normalize_company_name nm) nm f)
        gs, e.variations ≠ [] ∧ ∀ x ∈ e.filings, x ∈ S
  | [], gs, _, hgs => hgs
  | f :: l, gs, hl, hgs => by
    simp only [List.foldl_cons]
    have hfS : f ∈ S := hl f (List.mem_cons_self f l)
    have hl2 : ∀ x ∈ l, x ∈ S := fun x hx => hl x (List.mem_cons_of_mem f hx)
    by_cases h1 : filerNameOf f = []
    · simp only [h1, if_true]
      exact groupFoldAux_inv S l gs hl2 hgs
    · by_cases h2 : is_government_entity (filerNameOf f)
      · simp only [h1, if_false, h2, if_true]
        exact groupFoldAux_inv S l gs hl2 hgs
      · simp only [h1, if_false, h2]
        refine groupFoldAux_inv S l _ hl2 ?_
        refine addToGroups_pres _ _ _ _ ?_ ?_ gs hgs
        · exact ⟨by simp, by simp [hfS]⟩
        · intro e0 he0
          refine ⟨?_, ?_⟩
          · split
            · exact he0.1
            · simp
          · intro x hx
            simp only [List.mem_append, List.mem_singleton] at hx
            rcases hx with hx | rfl
            · exact he0.2 x hx
            · exact hfS

theorem groupFold_inv (input : List SFiling) (e : GEntry) (he : e ∈ groupFold input) :
    e.variations ≠ [] ∧ ∀ x ∈ e.filings, x ∈ input := by
  unfold groupFold at he
  exact groupFoldAux_inv input input [] (fun x hx => hx) (by simp) e he

/-- Field equations of a record emitted by `buildCompany`. -/
theorem buildCompany_fields (e : GEntry) (c : Company) (h : buildCompany e = some c) :
    e.filings.filter isApplication ≠ [] ∧
    c.company_name =
      (match stableSort varLe e.variations with | [] => e.key | v :: _ => v) ∧
    c.company_name_normalized = e.key ∧
    c.dba_name = (extract_dba_name c.company_name).2 ∧
    c.first_filing_date =
      (match stableSort dateLe (e.filings.filter isApplication) with
       | [] => [] | a :: _ => dateKey a).take 10 ∧
    c.latest_filing_date =
      (match e.filings.getLast? with
       | some f => some ((dateKey f).take 10) | none => none) ∧
    c.application_count = (e.filings.filter isApplication).length ∧
    c.total_filing_count = e.filings.length := by
  unfold buildCompany at h
  by_cases hemp : (e.filings.filter isApplication).isEmpty
  · simp [hemp] at h
  · simp only [hemp, Bool.false_eq_true, if_false, Option.some.injEq] at h
    subst h
    refine ⟨by simpa using hemp, rfl, rfl, rfl, rfl, rfl, rfl, rfl⟩

/-- `c ∈ structure_companies input` iff some group entry builds it. -/
theorem mem_structure_companies (input : List SFiling) (c : Company) :
    c ∈ structure_companies input ↔ ∃ e ∈ groupFold input, buildCompany e = some c := by
  unfold structure_companies
  rw [mem_stableSort, List.mem_filterMap]

theorem length_filter_split (p : α → Bool) :
    ∀ l : List α, (l.filter p).length + (l.filter (fun a => ! p a)).length = l.length
  | [] => rfl
  | a :: l => by
    cases h : p a <;>
      simp [List.filter_cons, h, ← length_filter_split p l] <;> omega

theorem extract_dedup_eq_flatten (queries : List (List EFiling)) :
    extract_dedup queries = queries.flatten.foldl dedupStep [] := by
  unfold extract_dedup
  rw [List.foldl_flatten]

theorem truthyId_eq_some (f : EFiling) (k : Str) (h : truthyId f = some k) :
    f.id_submission = some k ∧ k ≠ [] := by
  cases hi : f.id_submission with
  | none => simp [truthyId, hi] at h
  | some s =>
    simp only [truthyId, hi] at h
    by_cases hs : s = []
    · simp [hs] at h
    · simp only [if_neg hs, Option.some.injEq] at h
      subst h
      exact ⟨rfl, hs⟩

theorem lookupId_append_single (k k2 : Str) (f : EFiling) :
    ∀ m : List (Str × EFiling),
      lookupId k (m ++ [(k2, f)]) =
        oFirst (lookupId k m) (if k2 = k then some f else none)
  | [] => by simp [lookupId, oFirst]
  | (k3, g) :: m => by
    by_cases h : k3 = k
    · simp [lookupId, h, oFirst]
    · simp only [List.cons_append, lookupId, if_neg h]
      exact lookupId_append_single k k2 f m

theorem lookupId_foldl (k : Str) :
    ∀ (l : List EFiling) (m : List (Str × EFiling)),
      lookupId k (l.foldl dedupStep m) = oFirst (lookupId k m) (firstOcc k l)
  | [], m => by cases h : lookupId k m <;> simp [h, oFirst, firstOcc]
  | f :: l, m => by
    simp only [List.foldl_cons]
    rw [lookupId_foldl k l (dedupStep m f)]
    cases hid : truthyId f with
    | none =>
      have hstep : dedupStep m f = m := by simp [dedupStep, hid]
      have hfo : firstOcc k (f :: l) = firstOcc k l := by simp [firstOcc, hid]
      rw [hstep, hfo]
    | some k2 =>
      by_cases hm : lookupId k2 m = none
      · have hstep : dedupStep m f = m ++ [(k2, f)] := by simp [dedupStep, hid, hm]
        rw [hstep, lookupId_append_single]
        by_cases hk : k2 = k
        · subst hk
          have hfo : firstOcc k2 (f :: l) = some f := by simp [firstOcc, hid]
          rw [hfo, hm]
          simp [oFirst]
        · have hfo : firstOcc k (f :: l) = firstOcc k l := by
            simp [firstOcc, hid, hk]
          rw [hfo]
          cases h2 : lookupId k m <;> simp [oFirst, h2, if_neg hk]
      · have hstep : dedupStep m f = m := by simp [dedupStep, hid, hm]
        rw [hstep]
        by_cases hk : k2 = k
        · subst hk
          have hfo : firstOcc k2 (f :: l) = some f := by simp [firstOcc, hid]
          rw [hfo]
          obtain ⟨v, hv⟩ := Option.ne_none_iff_exists'.mp hm
          rw [hv]
          simp [oFirst]
        · have hfo : firstOcc k (f :: l) = firstOcc k l := by
            simp [firstOcc, hid, hk]
          rw [hfo]

theorem lookupId_none_iff_contains (k : Str) :
    ∀ m : List (Str × EFiling),
      (lookupId k m = none ↔ (m.map Prod.fst).contains k = false)
  | [] => by simp [lookupId]
  | (k2, f) :: m => by
    by_cases h : k2 = k
    · simp [lookupId, h]
    · simp only [lookupId, if_neg h, List.map_cons, List.contains_cons]
      rw [lookupId_none_iff_contains k m]
      have hbe : (k == k2) = false := by
        simp only [beq_eq_false_iff_ne, ne_eq]
        exact fun hh => h hh.symm
      simp [hbe]

theorem map_fst_dedup_foldl :
    ∀ (l : List EFiling) (m : List (Str × EFiling)),
      (l.foldl dedupStep m).map Prod.fst = distinctIds l (m.map Prod.fst)
  | [], m => rfl
  | f :: l, m => by
    simp only [List.foldl_cons]
    cases hid : truthyId f with
    | none =>
      have hstep : dedupStep m f = m := by simp [dedupStep, hid]
      rw [hstep, map_fst_dedup_foldl l m]
      have hd : distinctIds (f :: l) (m.map Prod.fst) = distinctIds l (m.map Prod.fst) := by
        simp [distinctIds, hid]
      rw [hd]
    | some k =>
      cases hc : (m.map Prod.fst).contains k with
      | true =>
        have hm : lookupId k m ≠ none := by
          intro hn
          have hx := (lookupId_none_iff_contains k m).mp hn
          rw [hx] at hc
          exact absurd hc (by simp)
        have hstep : dedupStep m f = m := by simp [dedupStep, hid, hm]
        rw [hstep, map_fst_dedup_foldl l m]
        have hd : distinctIds (f :: l) (m.map Prod.fst) = distinctIds l (m.map Prod.fst) := by
          simp only [distinctIds, hid]
          rw [if_pos hc]
        rw [hd]
      | false =>
        have hm : lookupId k m = none := (lookupId_none_iff_contains k m).mpr hc
        have hstep : dedupStep m f = m ++ [(k, f)] := by simp [dedupStep, hid, hm]
        rw [hstep, map_fst_dedup_foldl l (m ++ [(k, f)])]
        have hd : distinctIds (f :: l) (m.map Prod.fst) =
            distinctIds l (m.map Prod.fst ++ [k]) := by
          simp only [distinctIds, hid]
          rw [if_neg (by rw [hc]; exact Bool.false_ne_true)]
        rw [hd]
        simp

/-- Every entry of the dedup map is keyed by its filing's own truthy id. -/
theorem dedup_entries_wellKeyed :
    ∀ (l : List EFiling) (m : List (Str × EFiling)),
      (∀ kf ∈ m, (kf.2.id_submission = some kf.1 ∧ kf.1 ≠ [])) →
      ∀ kf ∈ l.foldl dedupStep m, kf.2.id_submission = some kf.1 ∧ kf.1 ≠ []
  | [], _, hm => hm
  | f :: l, m, hm => by
    simp only [List.foldl_cons]
    refine dedup_entries_wellKeyed l (dedupStep m f) ?_
    cases hid : truthyId f with
    | none =>
      have hstep : dedupStep m f = m := by simp [dedupStep, hid]
      rw [hstep]
      exact hm
    | some k =>
      by_cases hlk : lookupId k m = none
      · have hstep : dedupStep m f = m ++ [(k, f)] := by simp [dedupStep, hid, hlk]
        rw [hstep]
        intro kf hkf
        rcases List.mem_append.mp hkf with h | h
        · exact hm kf h
        · rcases List.mem_singleton.mp h with rfl
          exact truthyId_eq_some f k hid
      · have hstep : dedupStep m f = m := by simp [dedupStep, hid, hlk]
        rw [hstep]
        exact hm

/-- Each anchored suffix substitution either leaves the string unchanged or
replaces the suffix starting at the leftmost matching position. -/
theorem subSuffix_anchored (letters : RuleCore) (repl : Str) :
    ∀ s : Str, subSuffix letters repl s = s ∨
      ∃ p, p ≤ s.length ∧ matchesSuffixRule letters (s.drop p) = true ∧
        subSuffix letters repl s = s.take p ++ repl
  | [] => by
    by_cases h : matchesSuffixRule letters []
    · right
      exact ⟨0, by simp, by simpa using h, by simp [subSuffix, h]⟩
    · left
      simp [subSuffix, h]
  | c :: cs => by
    by_cases h : matchesSuffixRule letters (c :: cs)
    · right
      exact ⟨0, by simp, by simpa using h, by simp [subSuffix, h]⟩
    · rcases subSuffix_anchored letters repl cs with hu | ⟨p, hp, hmatch, heq⟩
      · left
        simp [subSuffix, h, hu]
      · right
        refine ⟨p + 1, by simpa using Nat.succ_le_succ hp, ?_, ?_⟩
        · simpa using hmatch
        · simp [subSuffix, h, heq]

/-! ## Claim theorems -/

/-- C1: for the claim "latest_filing_date equals the maximum date_received
(truncated to YYYY-MM-DD) among ALL filings in the group ... regardless of the
order in which the filings were read" the code disagrees: it reads
`filings[-1]` of the unsorted group list, so for a group read in the order
(APPLICATION 2022-05-05, SUPPLEMENT 2021-01-01) the emitted record has
`latest_filing_date = 2021-01-01` — earlier than its own `first_filing_date`
and not the maximum — while the reversed input order yields 2022-05-05. -/
theorem c1_latest_filing_date_bug :
    (structure_companies
        [ ⟨[some "Acme VoIP LLC".toList], some "APPLICATION".toList,
            some "2022-05-05T00:00:00Z".toList⟩,
          ⟨[some "Acme VoIP LLC".toList], some "SUPPLEMENT".toList,
            some "2021-01-01T00:00:00Z".toList⟩ ]).map
      (fun c => (c.first_filing_date, c.latest_filing_date)) =
      [("2022-05-05".toList, some "2021-01-01".toList)] ∧
    (structure_companies
        [ ⟨[some "Acme VoIP LLC".toList], some "SUPPLEMENT".toList,
            some "2021-01-01T00:00:00Z".toList⟩,
          ⟨[some "Acme VoIP LLC".toList], some "APPLICATION".toList,
            some "2022-05-05T00:00:00Z".toList⟩ ]).map
      (fun c => (c.first_filing_date, c.latest_filing_date)) =
      [("2022-05-05".toList, some "2022-05-05".toList)] := by
  decide

/-- C2 counterexample: the normalizer is not idempotent on every input —
`"a ."` normalizes to `"a "` (the `rstrip('.,')` after whitespace collapsing
exposes a trailing space), which normalizes further to `"a"`. -/
theorem c2_idempotence_counterexample :
    normalize_company_name (normalize_company_name "a .".toList) ≠
      normalize_company_name "a .".toList := by
  decide

/-- C2 (amended): the normalizer is idempotent on the cited edge cases
"Acme, L.L.C.", "ACME INC" and "Acme   Co." (though not on every string). -/
theorem c2_idempotent_on_edge_cases :
    (normalize_company_name (normalize_company_name "Acme, L.L.C.".toList) =
      normalize_company_name "Acme, L.L.C.".toList) ∧
    (normalize_company_name (normalize_company_name "ACME INC".toList) =
      normalize_company_name "ACME INC".toList) ∧
    (normalize_company_name (normalize_company_name "Acme   Co.".toList) =
      normalize_company_name "Acme   Co.".toList) := by
  decide

/-- C3: over the query result lists in query order, the dedup map retains for
every submission id exactly the first occurrence (by query order, then
within-query order); its keys are the distinct truthy ids in first-occurrence
order, so the retained count equals the number of distinct submission ids. -/
theorem c3_dedup_first_wins (queries : List (List EFiling)) :
    (∀ k : Str, lookupId k (extract_dedup queries) = firstOcc k queries.flatten) ∧
    (extract_dedup queries).map Prod.fst = distinctIds queries.flatten [] ∧
    (extract_dedup queries).length = (distinctIds queries.flatten []).length := by
  refine ⟨?_, ?_, ?_⟩
  · intro k
    rw [extract_dedup_eq_flatten, lookupId_foldl]
    simp [lookupId, oFirst]
  · rw [extract_dedup_eq_flatten, map_fst_dedup_foldl]
    rfl
  · rw [extract_dedup_eq_flatten]
    have h := map_fst_dedup_foldl queries.flatten []
    simp only [List.map_nil] at h
    rw [← h, List.length_map]

/-- C4 counterexample: filings with a missing id are *not* counted separately
in the reported statistics — a query set whose second filing has a null id and
one whose second filing is a duplicate of the first produce identical
statistics (fetched/new_unique/total), so the two cases are indistinguishable
there. -/
theorem c4_stats_counterexample :
    extractStats [[⟨some "a".toList, 0⟩, ⟨none, 1⟩]] =
      extractStats [[⟨some "a".toList, 0⟩, ⟨some "a".toList, 2⟩]] ∧
    (([[⟨some "a".toList, 0⟩, ⟨none, 1⟩]] : List (List EFiling)).flatten.filter
        (fun f => (truthyId f).isNone)).length = 1 ∧
    (([[⟨some "a".toList, 0⟩, ⟨some "a".toList, 2⟩]] : List (List EFiling)).flatten.filter
        (fun f => (truthyId f).isNone)).length = 0 := by
  decide

/-- C4 (amended): every filing whose `id_submission` is absent, null or empty
is excluded from the dedup map — each retained entry is keyed by its own
filing's nonempty id, so nothing is ever stored under a null or empty key;
but such filings are not separately counted in the statistics. -/
theorem c4_missing_id_excluded (queries : List (List EFiling)) (k : Str) (f : EFiling)
    (hmem : (k, f) ∈ extract_dedup queries) :
    f.id_submission = some k ∧ k ≠ [] := by
  rw [extract_dedup_eq_flatten] at hmem
  exact dedup_entries_wellKeyed queries.flatten [] (by simp) (k, f) hmem

theorem c4_missing_id_excluded_witness :
    ("a".toList, (⟨some "a".toList, 0⟩ : EFiling)) ∈
        extract_dedup [[⟨some "a".toList, 0⟩, ⟨none, 1⟩]] ∧
    ((⟨some "a".toList, 0⟩ : EFiling).id_submission = some "a".toList ∧
      "a".toList ≠ ([] : Str)) :=
  ⟨by decide,
   c4_missing_id_excluded [[⟨some "a".toList, 0⟩, ⟨none, 1⟩]] "a".toList
     ⟨some "a".toList, 0⟩ (by decide)⟩

/-- C9: the two `sanitize_filename` functions (in `download_docs.py` and in
`enrich.py`) are extensionally equal — identical output on every input. -/
theorem c9_sanitize_filename_equal (s : Str) :
    DownloadDocs.sanitize_filename s = Enrich.sanitize_filename s := rfl

/-- C5: the relevance classifier returns true iff some proceeding description
(missing/null read as the empty string) contains, case-insensitively, one of
the three fixed trigger phrases, or some document filename contains
"voip numbering"; as a total function it never raises on such filings. -/
theorem c5_classifier_iff (f : FFiling) :
    is_ipes_filing f = true ↔
      ((∃ d ∈ f.proceedings,
          ∃ p ∈ [phraseInterconnected, phraseAuthorizationApp, phraseObtainResources],
            containsStr (toLowerStr (d.getD [])) p = true) ∨
       (∃ fn ∈ f.documents,
          containsStr (toLowerStr (fn.getD [])) phraseDocFilename = true)) := by
  simp only [is_ipes_filing, Bool.or_eq_true, List.any_eq_true, List.mem_cons,
    List.not_mem_nil, or_false]
  constructor
  · rintro (⟨d, hd, hc⟩ | ⟨fn, hfn, hc⟩)
    · rcases hc with (hc | hc) | hc
      · exact Or.inl ⟨d, hd, phraseInterconnected, Or.inl rfl, hc⟩
      · exact Or.inl ⟨d, hd, phraseAuthorizationApp, Or.inr (Or.inl rfl), hc⟩
      · exact Or.inl ⟨d, hd, phraseObtainResources, Or.inr (Or.inr rfl), hc⟩
    · exact Or.inr ⟨fn, hfn, hc⟩
  · rintro (⟨d, hd, p, hp, hc⟩ | ⟨fn, hfn, hc⟩)
    · refine Or.inl ⟨d, hd, ?_⟩
      rcases hp with rfl | rfl | rfl
      · exact Or.inl (Or.inl hc)
      · exact Or.inl (Or.inr hc)
      · exact Or.inr hc
    · exact Or.inr ⟨fn, hfn, hc⟩

/-- C6 counterexample: for "acme llp" the first rule in table order whose
trailing pattern matches is the `llp` rule (the `llc`, `inc` and `corp`
patterns do not match anywhere); applying it leaves the string unchanged, yet
the later `lp` rule rewrites that result to "acme l lp", so within one pass a
later rule *does* further rewrite the result of the first matching rule. -/
theorem c6_first_match_only_counterexample :
    ruleHits (dotAfterEach "llc".toList) "acme llp".toList = false ∧
    ruleHits (dotAfterLast "inc".toList) "acme llp".toList = false ∧
    ruleHits (dotAfterLast "corp".toList) "acme llp".toList = false ∧
    ruleHits (dotAfterEach "llp".toList) "acme llp".toList = true ∧
    subSuffix (dotAfterEach "llp".toList) " llp".toList "acme llp".toList =
      "acme llp".toList ∧
    subSuffix (dotAfterEach "lp".toList) " lp".toList "acme llp".toList =
      "acme l lp".toList ∧
    applySuffixRules "acme llp".toList ≠
      subSuffix (dotAfterEach "llp".toList) " llp".toList "acme llp".toList := by
  decide

/-- C6 (amended): the rewrite loop applies *every* rule of the table in order
(a later rule can rewrite the result of an earlier one), and each rule is
anchored at end-of-string: one application either leaves the name unchanged or
replaces the trailing segment from the leftmost matching position with the
rule's canonical suffix. -/
theorem c6_rules_rewrite_trailing (r : RuleCore × Str) (_hr : r ∈ suffixRules) (s : Str) :
    subSuffix r.1 r.2 s = s ∨
      ∃ p, p ≤ s.length ∧ matchesSuffixRule r.1 (s.drop p) = true ∧
        subSuffix r.1 r.2 s = s.take p ++ r.2 :=
  subSuffix_anchored r.1 r.2 s

theorem c6_rules_rewrite_trailing_witness :
    (dotAfterEach "llc".toList, " llc".toList) ∈ suffixRules ∧
    (subSuffix (dotAfterEach "llc".toList) " llc".toList "acme, llc".toList =
        "acme, llc".toList ∨
      ∃ p, p ≤ ("acme, llc".toList : Str).length ∧
        matchesSuffixRule (dotAfterEach "llc".toList)
          (("acme, llc".toList : Str).drop p) = true ∧
        subSuffix (dotAfterEach "llc".toList) " llc".toList "acme, llc".toList =
          ("acme, llc".toList : Str).take p ++ " llc".toList) :=
  ⟨by decide,
   c6_rules_rewrite_trailing (dotAfterEach "llc".toList, " llc".toList) (by decide)
     "acme, llc".toList⟩

/-- C7: a group with no APPLICATION filing is never emitted — `buildCompany`
returns `none` for it, every record of `structure_companies` has at least one
APPLICATION in its group (`application_count` is the count of the group's
APPLICATION filings, see `buildCompany`), and a lone SUPPLEMENT filing
produces no output record. -/
theorem c7_requires_application :
    (∀ e : GEntry, e.filings.filter isApplication = [] → buildCompany e = none) ∧
    (∀ (input : List SFiling) (c : Company),
        c ∈ structure_companies input → 0 < c.application_count) ∧
    structure_companies
        [⟨[some "Acme VoIP LLC".toList], some "SUPPLEMENT".toList,
           some "2022-01-15T00:00:00Z".toList⟩] = [] := by
  refine ⟨?_, ?_, by decide⟩
  · intro e h
    simp [buildCompany, h]
  · intro input c hc
    rw [mem_structure_companies] at hc
    obtain ⟨e, he, hbc⟩ := hc
    obtain ⟨hne, _, _, _, _, _, happ, _⟩ := buildCompany_fields e c hbc
    rw [happ]
    exact List.length_pos.mpr hne

theorem c7_requires_application_witness :
    ({ company_name := "Acme VoIP LLC".toList
       company_name_normalized := "acme voip llc".toList
       dba_name := none
       name_variations := ["Acme VoIP LLC".toList]
       first_filing_date := "2021-03-01".toList
       latest_filing_date := some "2021-03-01".toList
       application_count := 1
       total_filing_count := 1 } : Company) ∈
      structure_companies
        [⟨[some "Acme VoIP LLC".toList], some "APPLICATION".toList,
           some "2021-03-01T00:00:00Z".toList⟩] ∧
    0 < ({ company_name := "Acme VoIP LLC".toList
           company_name_normalized := "acme voip llc".toList
           dba_name := none
           name_variations := ["Acme VoIP LLC".toList]
           first_filing_date := "2021-03-01".toList
           latest_filing_date := some "2021-03-01".toList
           application_count := 1
           total_filing_count := 1 } : Company).application_count :=
  ⟨by decide,
   c7_requires_application.2.1
     [⟨[some "Acme VoIP LLC".toList], some "APPLICATION".toList,
        some "2021-03-01T00:00:00Z".toList⟩]
     { company_name := "Acme VoIP LLC".toList
       company_name_normalized := "acme voip llc".toList
       dba_name := none
       name_variations := ["Acme VoIP LLC".toList]
       first_filing_date := "2021-03-01".toList
       latest_filing_date := some "2021-03-01".toList
       application_count := 1
       total_filing_count := 1 }
     (by decide)⟩

/-- C8: for every emitted record there is a group entry such that the record's
`company_name` is a variant observed for that group and is minimal among all
the group's distinct variants under the election order (descending length,
then ascending lexicographic) — i.e. it is the first element after sorting by
that order; it is kept verbatim, with the d/b/a part stored separately in
`dba_name` as the second component of `extract_dba_name` on the elected name. -/
theorem c8_canonical_name_election (input : List SFiling) (c : Company)
    (hc : c ∈ structure_companies input) :
    ∃ e ∈ groupFold input,
      e.key = c.company_name_normalized ∧
      c.company_name ∈ e.variations ∧
      (∀ w ∈ e.variations, varLe c.company_name w = true) ∧
      c.dba_name = (extract_dba_name c.company_name).2 := by
  rw [mem_structure_companies] at hc
  obtain ⟨e, he, hbc⟩ := hc
  obtain ⟨hne, hname, hnorm, hdba, _, _, _, _⟩ := buildCompany_fields e c hbc
  have hvarne : e.variations ≠ [] := (groupFold_inv input e he).1
  obtain ⟨v0, hv0⟩ := List.exists_mem_of_ne_nil e.variations hvarne
  have hv0s : v0 ∈ stableSort varLe e.variations :=
    (mem_stableSort varLe v0 e.variations).mpr hv0
  cases hsv : stableSort varLe e.variations with
  | nil =>
    rw [hsv] at hv0s
    exact absurd hv0s (List.not_mem_nil v0)
  | cons v rest =>
    rw [hsv] at hname
    dsimp only at hname
    have hpw := pairwise_stableSort varLe varLe_total varLe_trans e.variations
    rw [hsv, List.pairwise_cons] at hpw
    refine ⟨e, he, hnorm.symm, ?_, ?_, hdba⟩
    · have hvmem : v ∈ stableSort varLe e.variations := by
        rw [hsv]
        exact List.mem_cons_self v rest
      rw [hname]
      exact (mem_stableSort varLe v e.variations).mp hvmem
    · intro w hw
      have hws : w ∈ stableSort varLe e.variations :=
        (mem_stableSort varLe w e.variations).mpr hw
      rw [hsv, List.mem_cons] at hws
      rw [hname]
      rcases hws with rfl | hws
      · exact varLe_refl w
      · exact hpw.1 w hws

theorem c8_canonical_name_election_witness :
    ∃ e ∈ groupFold
        [ ⟨[some "Acme VoIP LLC".toList], some "APPLICATION".toList,
            some "2021-03-01T00:00:00Z".toList⟩,
          ⟨[some "ACME VOIP, L.L.C.".toList], some "SUPPLEMENT".toList,
            some "2022-01-15T00:00:00Z".toList⟩ ],
      e.key = "acme voip llc".toList ∧
      "ACME VOIP, L.L.C.".toList ∈ e.variations ∧
      (∀ w ∈ e.variations, varLe "ACME VOIP, L.L.C.".toList w = true) ∧
      (none : Option Str) = (extract_dba_name "ACME VOIP, L.L.C.".toList).2 := by
  exact c8_canonical_name_election _
    { company_name := "ACME VOIP, L.L.C.".toList
      company_name_normalized := "acme voip llc".toList
      dba_name := none
      name_variations := ["ACME VOIP, L.L.C.".toList, "Acme VoIP LLC".toList]
      first_filing_date := "2021-03-01".toList
      latest_filing_date := some "2022-01-15".toList
      application_count := 1
      total_filing_count := 2 }
    (by decide)

/-- C10 counterexample: the date fields of an emitted record need not be
10-character strings — an APPLICATION filing with no `date_received` yields a
record whose `first_filing_date` is the empty string (length 0) and whose
`latest_filing_date` is `some ""` (non-null, but not 10 characters). -/
theorem c10_date_length_counterexample :
    (structure_companies
        [⟨[some "Acme VoIP LLC".toList], some "APPLICATION".toList, none⟩]).map
      (fun c => (c.first_filing_date.length, c.latest_filing_date)) =
      [(0, some ([] : Str))] := by
  decide

/-- C10 (amended): every emitted record has `application_count ≥ 1`;
`total_filing_count` equals `application_count` plus the number of
non-APPLICATION filings of its group; `latest_filing_date` is never `none`
(the fallback is unreachable for emitted records); both date fields are
truncations to at most 10 characters (unconditionally), and are exactly 10
characters when every input filing carries a `date_received` of at least 10
characters. -/
theorem c10_record_invariants (input : List SFiling) (c : Company)
    (hc : c ∈ structure_companies input) :
    0 < c.application_count ∧
    (∃ e ∈ groupFold input,
      c.application_count = (e.filings.filter isApplication).length ∧
      c.total_filing_count =
        c.application_count + (e.filings.filter (fun f => ! isApplication f)).length) ∧
    c.latest_filing_date ≠ none ∧
    c.first_filing_date.length ≤ 10 ∧
    (∀ d : Str, c.latest_filing_date = some d → d.length ≤ 10) ∧
    ((∀ f ∈ input, 10 ≤ (dateKey f).length) →
      c.first_filing_date.length = 10 ∧
      ∀ d : Str, c.latest_filing_date = some d → d.length = 10) := by
  rw [mem_structure_companies] at hc
  obtain ⟨e, he, hbc⟩ := hc
  obtain ⟨hne, _, _, _, hfirst, hlast, happ, htot⟩ := buildCompany_fields e c hbc
  have hsub := (groupFold_inv input e he).2
  have happos : 0 < c.application_count := by
    rw [happ]
    exact List.length_pos.mpr hne
  have hfne : e.filings ≠ [] := by
    intro h0
    rw [h0] at hne
    simp at hne
  obtain ⟨flast, hflast⟩ : ∃ x, e.filings.getLast? = some x := by
    cases hgl : e.filings.getLast? with
    | none => exact absurd (List.getLast?_eq_none_iff.mp hgl) hfne
    | some x => exact ⟨x, rfl⟩
  have hflast_mem : flast ∈ e.filings := List.mem_of_getLast?_eq_some hflast
  rw [hflast] at hlast
  dsimp only at hlast
  obtain ⟨a0, ha0⟩ := List.exists_mem_of_ne_nil _ hne
  have ha0s : a0 ∈ stableSort dateLe (e.filings.filter isApplication) :=
    (mem_stableSort _ _ _).mpr ha0
  cases hsv : stableSort dateLe (e.filings.filter isApplication) with
  | nil =>
    rw [hsv] at ha0s
    exact absurd ha0s (List.not_mem_nil a0)
  | cons b rest =>
    rw [hsv] at hfirst
    dsimp only at hfirst
    have hbmem : b ∈ e.filings := by
      have hbs : b ∈ stableSort dateLe (e.filings.filter isApplication) := by
        rw [hsv]
        exact List.mem_cons_self b rest
      exact List.mem_of_mem_filter ((mem_stableSort _ _ _).mp hbs)
    refine ⟨happos, ⟨e, he, happ, ?_⟩, ?_, ?_, ?_, ?_⟩
    · rw [htot, happ]
      exact (length_filter_split isApplication e.filings).symm
    · rw [hlast]
      simp
    · rw [hfirst, List.length_take]
      exact Nat.min_le_left _ _
    · intro d hd
      rw [hlast] at hd
      have hdd := Option.some.inj hd
      rw [← hdd, List.length_take]
      exact Nat.min_le_left _ _
    · intro hdates
      have hb10 : 10 ≤ (dateKey b).length := hdates b (hsub b hbmem)
      have hl10 : 10 ≤ (dateKey flast).length := hdates flast (hsub flast hflast_mem)
      refine ⟨?_, ?_⟩
      · rw [hfirst, List.length_take]
        exact Nat.min_eq_left hb10
      · intro d hd
        rw [hlast] at hd
        have hdd := Option.some.inj hd
        rw [← hdd, List.length_take]
        exact Nat.min_eq_left hl10

theorem c10_record_invariants_witness :
    ({ company_name := "Acme VoIP LLC".toList
       company_name_normalized := "acme voip llc".toList
       dba_name := none
       name_variations := ["Acme VoIP LLC".toList]
       first_filing_date := "2021-03-01".toList
       latest_filing_date := some "2021-03-01".toList
       application_count := 1
       total_filing_count := 1 } : Company) ∈
      structure_companies
        [⟨[some "Acme VoIP LLC".toList], some "APPLICATION".toList,
           some "2021-03-01T00:00:00Z".toList⟩] ∧
    0 < (1 : Nat) ∧
    ("2021-03-01".toList : Str).length = 10 := by
  have h := c10_record_invariants
    [⟨[some "Acme VoIP LLC".toList], some "APPLICATION".toList,
       some "2021-03-01T00:00:00Z".toList⟩]
    { company_name := "Acme VoIP LLC".toList
      company_name_normalized := "acme voip llc".toList
      dba_name := none
      name_variations := ["Acme VoIP LLC".toList]
      first_filing_date := "2021-03-01".toList
      latest_filing_date := some "2021-03-01".toList
      application_count := 1
      total_filing_count := 1 }
    (by decide)
  exact ⟨by decide, h.1, (h.2.2.2.2.2 (by decide)).1⟩
